import Mathlib

/-!
Verification of the resonance-geometry engine of the resokit repository
(`resokit/tools/rmm.py`): the resonance enumerator `rmm_in_area` with its
window-intersection test, and the curve-distance solver `mindist_r3p` with
its Halley iteration, singularity guard and brute-force fallback.

The Python code is embedded shallowly: integer coefficient arithmetic
becomes `ℤ`/`ℕ` arithmetic, the floating-point curve/window arithmetic is
modelled exactly over `ℚ` (and over `ℝ` where derivatives or square roots
are involved), and the unbounded `while` loop of the solver is modelled by
a fuel parameter, `Option.none` meaning "fuel exhausted".
-/

namespace Resokit

/-- Curve evaluation `r3p` (scalar case): `y = -c / (a*x + b)`. -/
def r3pQ (a b c x : ℚ) : ℚ := -c / (a * x + b)

/-- Curve evaluation over the reals, for the distance/derivative statements. -/
noncomputable def r3pR (a b c : ℚ) (x : ℝ) : ℝ := -(c : ℝ) / ((a : ℝ) * x + (b : ℝ))

/-- Singular abscissa of the curve, `sing = -b / a` in the source. -/
def singQ (a b : ℚ) : ℚ := -b / a

/-- Window-intersection test of `rmm_in_area` (lines 76-130), transcribed
from the source: the outer branch distinguishes a singularity outside the
x-range (`-j/i < l1x or -j/i > l2x`) from one inside; each branch checks
the left edge, the right edge and the bottom edge in this order with
short-circuit, and the divisions are written exactly as in the source
(`-(j*l1y + k)/i/l1y` is a sequential double division). -/
def in_area_code (i j k : ℤ) (l1x l2x l1y l2y : ℚ) : Bool :=
  if (-(j : ℚ) / (i : ℚ) < l1x) ∨ (-(j : ℚ) / (i : ℚ) > l2x) then
    if (-(k : ℚ) / ((i : ℚ) * l1x + (j : ℚ)) ≥ l1y) ∧
        (-(k : ℚ) / ((i : ℚ) * l1x + (j : ℚ)) ≤ l2y) then true
    else if (-(k : ℚ) / ((i : ℚ) * l2x + (j : ℚ)) ≥ l1y) ∧
        (-(k : ℚ) / ((i : ℚ) * l2x + (j : ℚ)) ≤ l2y) then true
    else if (-((j : ℚ) * l1y + (k : ℚ)) / (i : ℚ) / l1y ≥ l1x) ∧
        (-((j : ℚ) * l1y + (k : ℚ)) / (i : ℚ) / l1y ≤ l2x) then true
    else false
  else
    if (-(j : ℚ) / (i : ℚ) ≠ l1x) ∧
        (-(k : ℚ) / ((i : ℚ) * l1x + (j : ℚ)) ≥ l1y) ∧
        (-(k : ℚ) / ((i : ℚ) * l1x + (j : ℚ)) ≤ l2y) then true
    else if (-(j : ℚ) / (i : ℚ) ≠ l2x) ∧
        (-(k : ℚ) / ((i : ℚ) * l2x + (j : ℚ)) ≥ l1y) ∧
        (-(k : ℚ) / ((i : ℚ) * l2x + (j : ℚ)) ≤ l2y) then true
    else if ((-((j : ℚ) * l1y + (k : ℚ)) / (i : ℚ) / l1y ≥ l1x) ∧
        (-((j : ℚ) * l1y + (k : ℚ)) / (i : ℚ) / l1y < -(j : ℚ) / (i : ℚ))) ∨
        ((-((j : ℚ) * l1y + (k : ℚ)) / (i : ℚ) / l1y > -(j : ℚ) / (i : ℚ)) ∧
        (-((j : ℚ) * l1y + (k : ℚ)) / (i : ℚ) / l1y ≤ l2x)) then true
    else false

/-- Value of the curve of the triple `(i,j,k)` at a given abscissa. -/
def curveAtX (i j k : ℤ) (x : ℚ) : ℚ := -(k : ℚ) / ((i : ℚ) * x + (j : ℚ))

/-- Abscissa of the curve of the triple `(i,j,k)` at a given ordinate,
`x = -(j*y + k) / (i*y)`. -/
def curveAtY (i j k : ℤ) (y : ℚ) : ℚ := -((j : ℚ) * y + (k : ℚ)) / ((i : ℚ) * y)

/-- Window-intersection test as the specification words it: three edge
tests (left, right, bottom; the top edge is never tested), joined by a
short-circuit disjunction; when the singular abscissa lies in
`[xMin, xMax]` the left/right tests additionally require the singularity
not to coincide with the tested edge, and the bottom test is split into
the sub-intervals below and above the singularity. -/
def in_area_spec (i j k : ℤ) (l1x l2x l1y l2y : ℚ) : Bool :=
  let sing := -(j : ℚ) / (i : ℚ)
  let vL := curveAtX i j k l1x
  let vR := curveAtX i j k l2x
  let xb := curveAtY i j k l1y
  let testL := decide (l1y ≤ vL ∧ vL ≤ l2y)
  let testR := decide (l1y ≤ vR ∧ vR ≤ l2y)
  if l1x ≤ sing ∧ sing ≤ l2x then
    (decide (sing ≠ l1x) && testL) || (decide (sing ≠ l2x) && testR) ||
      decide ((l1x ≤ xb ∧ xb < sing) ∨ (sing < xb ∧ xb ≤ l2x))
  else
    testL || testR || decide (l1x ≤ xb ∧ xb ≤ l2x)

/-- C1. Window-intersection test: the enumerator's acceptance test equals
the three short-circuited edge tests described by the specification —
left edge, right edge, bottom edge, with the singular-abscissa
refinements when `-j/i ∈ [xMin, xMax]`, and no top-edge test. -/
theorem window_test_equiv (i j k : ℤ) (l1x l2x l1y l2y : ℚ) :
    in_area_code i j k l1x l2x l1y l2y = in_area_spec i j k l1x l2x l1y l2y := by
  have hdd : -((j : ℚ) * l1y + (k : ℚ)) / (i : ℚ) / l1y =
      -((j : ℚ) * l1y + (k : ℚ)) / ((i : ℚ) * l1y) := div_div _ _ _
  have hbranch : (¬ ((-(j : ℚ) / (i : ℚ) < l1x) ∨ (-(j : ℚ) / (i : ℚ) > l2x))) ↔
      (l1x ≤ -(j : ℚ) / (i : ℚ) ∧ -(j : ℚ) / (i : ℚ) ≤ l2x) := by
    constructor
    · intro h
      push_neg at h
      exact ⟨h.1, h.2⟩
    · intro h
      push_neg
      exact ⟨h.1, h.2⟩
  unfold in_area_code in_area_spec curveAtX curveAtY
  rw [hdd]
  by_cases h2 : l1x ≤ -(j : ℚ) / (i : ℚ) ∧ -(j : ℚ) / (i : ℚ) ≤ l2x
  · have h1 : ¬ ((-(j : ℚ) / (i : ℚ) < l1x) ∨ (-(j : ℚ) / (i : ℚ) > l2x)) :=
      hbranch.mpr h2
    simp only [if_neg h1, if_pos h2]
    split_ifs <;> simp_all
  · have h1 : (-(j : ℚ) / (i : ℚ) < l1x) ∨ (-(j : ℚ) / (i : ℚ) > l2x) := by
      by_contra hc
      exact h2 (hbranch.mp hc)
    simp only [if_pos h1, if_neg h2]
    split_ifs <;> simp_all

/-- Integer range `np.flip(np.arange(-m, m + 1))`, i.e. `m, m-1, ..., -m`. -/
def intList (m : ℕ) : List ℤ := (List.range (2 * m + 1)).map (fun t => (m : ℤ) - t)

/-- Filtering and canonicalization steps of the three-body branch of
`rmm_in_area` (lines 48-71): order filter, at most one zero entry,
`i ≠ 0` and `k ≠ 0`, the `j = 0` representative choice, the sign
canonicalization of the pattern `(i<0, j>0, k<0)`, and gcd reduction.
Returns the reduced triple, or nothing when a filter rejects. -/
def canon3 (order : ℕ) (i j k : ℤ) : Option (ℤ × ℤ × ℤ) :=
  if |i + j + k| > (order : ℤ) then Option.none
  else if [i, j, k].count 0 > 1 then Option.none
  else if i = 0 ∨ k = 0 then Option.none
  else if j = 0 ∧ ¬(0 < i ∧ k < 0) then Option.none
  else
    let i1 := if i < 0 ∧ 0 < j ∧ k < 0 then -i else i
    let j1 := if i < 0 ∧ 0 < j ∧ k < 0 then -j else j
    let k1 := if i < 0 ∧ 0 < j ∧ k < 0 then -k else k
    let g : ℤ := (Int.gcd (Int.gcd i1 j1) k1 : ℤ)
    some (i1 / g, j1 / g, k1 / g)

/-- Body of the innermost loop of the three-body branch: after
canonicalization, skip if the triple is already accepted, then accept it
exactly when the window-intersection test succeeds. -/
def step3 (l1x l2x l1y l2y : ℚ) (order : ℕ) (i j k : ℤ)
    (acc : List (ℤ × ℤ × ℤ)) : List (ℤ × ℤ × ℤ) :=
  match canon3 order i j k with
  | Option.none => acc
  | some t =>
    if t ∈ acc then acc
    else if in_area_code t.1 t.2.1 t.2.2 l1x l2x l1y l2y then acc ++ [t]
    else acc

/-- Three-body branch of `rmm_in_area`: triple loop over
`np.flip(np.arange(-maxint, maxint + 1))` accumulating the list `r3pl`. -/
def rmm3 (l1x l2x l1y l2y : ℚ) (order maxint : ℕ) : List (ℤ × ℤ × ℤ) :=
  (intList maxint).foldl (fun acc i =>
    (intList maxint).foldl (fun acc j =>
      (intList maxint).foldl (fun acc k =>
        step3 l1x l2x l1y l2y order i j k acc) acc) acc) []

/-- Body of the two-body loop of `rmm_in_area` (lines 141-162), for one
axis interval `[l1, l2]`: keep `j < i` and `i - j ≤ order`, reduce by the
gcd, and accept the reduced pair when its ratio lies in the interval and
it is not yet present. -/
def step2 (l1 l2 : ℚ) (order : ℕ) (i j : ℕ) (acc : List (ℕ × ℕ)) : List (ℕ × ℕ) :=
  if j ≥ i then acc
  else if i - j > order then acc
  else if ((i / Nat.gcd i j : ℕ) : ℚ) / ((j / Nat.gcd i j : ℕ) : ℚ) ≥ l1 ∧
      ((i / Nat.gcd i j : ℕ) : ℚ) / ((j / Nat.gcd i j : ℕ) : ℚ) ≤ l2 then
    if (i / Nat.gcd i j, j / Nat.gcd i j) ∈ acc then acc
    else acc ++ [(i / Nat.gcd i j, j / Nat.gcd i j)]
  else acc

/-- Two-body branch of `rmm_in_area` for one axis interval: double loop
over `np.arange(1, maxint + 1)`. -/
def rmm2 (l1 l2 : ℚ) (order maxint : ℕ) : List (ℕ × ℕ) :=
  ((List.range maxint).map (· + 1)).foldl (fun acc i =>
    ((List.range maxint).map (· + 1)).foldl (fun acc j =>
      step2 l1 l2 order i j acc) acc) []

/-- Result of `rmm_in_area` with `r2p=True`: the three-body list and the
two per-axis two-body lists (the y-axis list is aliased to the x-axis
list when the window is square, which gives the same value as running
the y-interval loop on equal bounds). -/
def rmm_in_area (l1x l2x l1y l2y : ℚ) (r3pOrder r3pMaxint r2pOrder r2pMaxint : ℕ) :
    List (ℤ × ℤ × ℤ) × List (ℕ × ℕ) × List (ℕ × ℕ) :=
  let r3pl := rmm3 l1x l2x l1y l2y r3pOrder r3pMaxint
  let r2px := rmm2 l1x l2x r2pOrder r2pMaxint
  let r2py := if (l1y = l1x) ∧ (l2y = l2x) then r2px else rmm2 l1y l2y r2pOrder r2pMaxint
  (r3pl, r2px, r2py)

/-- Gcd-canonicality of an integer triple: `gcd(gcd(i,j),k) = 1`. -/
def good3 (t : ℤ × ℤ × ℤ) : Prop := Int.gcd (Int.gcd t.1 t.2.1) t.2.2 = 1

/-- Folding a step function that preserves an invariant preserves it. -/
theorem foldl_inv {α β : Type} (P : List α → Prop) (f : List α → β → List α)
    (hf : ∀ acc x, P acc → P (f acc x)) :
    ∀ (l : List β) (acc : List α), P acc → P (l.foldl f acc) := by
  intro l
  induction l with
  | nil => intro acc h; exact h
  | cons x xs ih => intro acc h; exact ih (f acc x) (hf acc x h)

/-- Dividing a triple with nonzero first entry by the gcd of its entries
yields a gcd-reduced triple. -/
theorem gcd_reduce_good (i1 j1 k1 : ℤ) (hi : i1 ≠ 0) :
    good3 (i1 / (Int.gcd (Int.gcd i1 j1) k1 : ℤ),
      j1 / (Int.gcd (Int.gcd i1 j1) k1 : ℤ),
      k1 / (Int.gcd (Int.gcd i1 j1) k1 : ℤ)) := by
  have hgpos : 0 < Int.gcd (Int.gcd i1 j1) k1 := by
    rcases Nat.eq_zero_or_pos (Int.gcd (Int.gcd i1 j1) k1) with hz | hp
    · exfalso
      have h1 := Int.gcd_eq_zero_iff.mp hz
      have h2 := Int.gcd_eq_zero_iff.mp (by exact_mod_cast h1.1)
      exact hi h2.1
    · exact hp
  set g : ℤ := (Int.gcd (Int.gcd i1 j1) k1 : ℤ) with hg
  have hdvd_ij : g ∣ (Int.gcd i1 j1 : ℤ) := Int.gcd_dvd_left
  have hdvd_i : g ∣ i1 := hdvd_ij.trans Int.gcd_dvd_left
  have hdvd_j : g ∣ j1 := hdvd_ij.trans Int.gcd_dvd_right
  have hdvd_k : g ∣ k1 := Int.gcd_dvd_right
  have hinner : Int.gcd (i1 / g) (j1 / g) = Int.gcd i1 j1 / g.natAbs :=
    Int.gcd_div hdvd_i hdvd_j
  have hcast : ((Int.gcd i1 j1 / g.natAbs : ℕ) : ℤ) = (Int.gcd i1 j1 : ℤ) / g := by
    rw [Int.ofNat_ediv, hg]
    simp
  have houter : Int.gcd ((Int.gcd i1 j1 : ℤ) / g) (k1 / g) =
      Int.gcd (Int.gcd i1 j1 : ℤ) k1 / g.natAbs := Int.gcd_div hdvd_ij hdvd_k
  show Int.gcd (Int.gcd (i1 / g) (j1 / g)) (k1 / g) = 1
  rw [hinner, hcast, houter]
  have hns : Int.gcd (Int.gcd i1 j1 : ℤ) k1 = g.natAbs := by
    rw [hg]
    simp
  rw [hns]
  exact Nat.div_self (by rw [hg]; simpa using hgpos)

/-- A successful canonicalization yields a gcd-reduced triple. -/
theorem canon3_good {order : ℕ} {i j k : ℤ} {t : ℤ × ℤ × ℤ}
    (h : canon3 order i j k = some t) : good3 t := by
  simp only [canon3] at h
  split_ifs at h with h1 h2 h3 h4 h5
  · have hit : t = (-i / (Int.gcd (Int.gcd (-i) (-j)) (-k) : ℤ),
        -j / (Int.gcd (Int.gcd (-i) (-j)) (-k) : ℤ),
        -k / (Int.gcd (Int.gcd (-i) (-j)) (-k) : ℤ)) := by
      exact (Option.some_inj.mp h).symm
    rw [hit]
    exact gcd_reduce_good (-i) (-j) (-k) (by
      intro hi
      exact h3 (Or.inl (by omega)))
  · have hit : t = (i / (Int.gcd (Int.gcd i j) k : ℤ),
        j / (Int.gcd (Int.gcd i j) k : ℤ),
        k / (Int.gcd (Int.gcd i j) k : ℤ)) := by
      exact (Option.some_inj.mp h).symm
    rw [hit]
    exact gcd_reduce_good i j k (fun hi => h3 (Or.inl hi))

/-- Each `step3` keeps the accumulated list gcd-reduced and duplicate-free. -/
theorem step3_inv (l1x l2x l1y l2y : ℚ) (order : ℕ) (i j k : ℤ)
    (acc : List (ℤ × ℤ × ℤ))
    (h : (∀ t ∈ acc, good3 t) ∧ acc.Nodup) :
    (∀ t ∈ step3 l1x l2x l1y l2y order i j k acc, good3 t) ∧
      (step3 l1x l2x l1y l2y order i j k acc).Nodup := by
  unfold step3
  cases hc : canon3 order i j k with
  | none => exact h
  | some t =>
    by_cases hmem : t ∈ acc
    · simp only [hmem, if_pos]
      exact h
    · simp only [hmem, if_neg, if_false]
      split_ifs with harea
      · constructor
        · intro u hu
          rcases List.mem_append.mp hu with hu | hu
          · exact h.1 u hu
          · rw [List.mem_singleton.mp hu]
            exact canon3_good hc
        · exact List.Nodup.append h.2 (List.nodup_singleton t)
            (by simpa using fun ht => hmem ht)
      · exact h

/-- C2 (amended). Canonicality and exact deduplication of the three-body
output: every triple in the enumerator's three-body list is gcd-reduced
(`gcd(gcd(i,j),k) = 1`), and the list contains no duplicate triple.
(The stronger claim that no two entries describe the same curve fails:
a triple and its global negation can both appear, see the counterexample.) -/
theorem rmm3_gcd_nodup (l1x l2x l1y l2y : ℚ) (order maxint : ℕ) :
    (∀ t ∈ rmm3 l1x l2x l1y l2y order maxint, good3 t) ∧
      (rmm3 l1x l2x l1y l2y order maxint).Nodup := by
  unfold rmm3
  apply foldl_inv (fun acc => (∀ t ∈ acc, good3 t) ∧ acc.Nodup)
  · intro acc i hP
    apply foldl_inv (fun acc => (∀ t ∈ acc, good3 t) ∧ acc.Nodup)
    · intro acc j hP
      apply foldl_inv (fun acc => (∀ t ∈ acc, good3 t) ∧ acc.Nodup)
      · intro acc k hP
        exact step3_inv l1x l2x l1y l2y order i j k acc hP
      · exact hP
    · exact hP
  · exact ⟨fun t ht => absurd ht (List.not_mem_nil t), List.nodup_nil⟩

set_option maxRecDepth 4000 in
/-- Witness for the amended C2 at a concrete accepted triple. -/
theorem rmm3_gcd_nodup_witness : good3 (1, 1, -2) :=
  (rmm3_gcd_nodup 1 2 (1/2) 1 0 2).1 (1, 1, -2) (by with_unfolding_all decide)

set_option maxRecDepth 4000 in
/-- C2 (counterexample). With window `[1,2] × [1/2,1]`, order 0 and search
bound 2, the enumerator returns both `(1, 1, -2)` and its global negation
`(-1, -1, 2)`: two distinct entries describing the same rational curve,
refuting the claim that no two returned triples reduce to the same
canonical form. -/
theorem rmm3_negation_pair :
    (1, 1, -2) ∈ rmm3 1 2 (1/2) 1 0 2 ∧
      (-(1 : ℤ), -(1 : ℤ), -(-2 : ℤ)) ∈ rmm3 1 2 (1/2) 1 0 2 ∧
      (1, 1, -2) ≠ (-(1 : ℤ), -(1 : ℤ), -(-2 : ℤ)) := by
  refine ⟨by with_unfolding_all decide, by with_unfolding_all decide, by decide⟩

set_option maxRecDepth 4000 in
/-- C6 (counterexample). The enumerator performs no window validation:
with the invalid window `xMin = 2 > 1 = xMax` it still runs the
coefficient search and returns the triple `(1, 1, -2)`, refuting the
claim that such a window fails fast before any search begins and that no
result sets are produced. -/
theorem rmm3_invalid_window_accepts :
    ((1 : ℚ) ≤ 2) ∧ (1, 1, -2) ∈ rmm3 2 1 (1/2) 10 0 2 := by
  refine ⟨by norm_num, by with_unfolding_all decide⟩

set_option maxRecDepth 4000 in
/-- C6 (amended). The enumerator does not validate the window: for a
window with `xMin ≥ xMax` the coefficient search still runs and can
produce a non-empty result list. -/
theorem rmm3_invalid_window_nonempty : 0 < (rmm3 2 1 (1/2) 10 0 2).length := by
  with_unfolding_all decide

/-- Membership-restricted version of `foldl_inv`: the step function needs
to preserve the invariant only at elements of the folded list. -/
theorem foldl_inv_mem {α β : Type} (P : List α → Prop) (f : List α → β → List α) :
    ∀ (l : List β), (∀ acc x, x ∈ l → P acc → P (f acc x)) →
      ∀ (acc : List α), P acc → P (l.foldl f acc) := by
  intro l
  induction l with
  | nil => intro _ acc h; exact h
  | cons x xs ih =>
    intro hf acc h
    exact ih (fun acc y hy hP => hf acc y (List.mem_cons_of_mem x hy) hP)
      (f acc x) (hf acc x (List.mem_cons_self x xs) h)

/-- Well-formedness of a two-body pair for the interval `[l1, l2]` and
order bound `order`: coprime, positive denominator, `q < p`,
`p - q ≤ order`, and ratio inside the interval. -/
def good2 (l1 l2 : ℚ) (order : ℕ) (s : ℕ × ℕ) : Prop :=
  Nat.Coprime s.1 s.2 ∧ 1 ≤ s.2 ∧ s.2 < s.1 ∧ s.1 - s.2 ≤ order ∧
    ((s.1 : ℚ) / (s.2 : ℚ) ≥ l1) ∧ ((s.1 : ℚ) / (s.2 : ℚ) ≤ l2)

/-- The pair appended by `step2` is well formed, provided the loop indices
are positive as they are in `rmm_in_area`. -/
theorem step2_inv (l1 l2 : ℚ) (order : ℕ) (i j : ℕ) (hi : 1 ≤ i) (hj : 1 ≤ j)
    (acc : List (ℕ × ℕ))
    (h : (∀ s ∈ acc, good2 l1 l2 order s) ∧ acc.Nodup) :
    (∀ s ∈ step2 l1 l2 order i j acc, good2 l1 l2 order s) ∧
      (step2 l1 l2 order i j acc).Nodup := by
  unfold step2
  split_ifs with h1 h2 h3 h4
  · exact h
  · exact h
  · exact h
  · constructor
    · intro s hs
      rcases List.mem_append.mp hs with hs | hs
      · exact h.1 s hs
      · rw [List.mem_singleton.mp hs]
        have hji : j < i := Nat.lt_of_not_le h1
        have hgpos : 0 < Nat.gcd i j := Nat.gcd_pos_of_pos_left j (by omega)
        have hgi : Nat.gcd i j ∣ i := Nat.gcd_dvd_left i j
        have hgj : Nat.gcd i j ∣ j := Nat.gcd_dvd_right i j
        have hq1 : 1 ≤ j / Nat.gcd i j := by
          have := Nat.div_pos (Nat.le_of_dvd (by omega) hgj) hgpos
          omega
        have hqp : j / Nat.gcd i j < i / Nat.gcd i j :=
          Nat.div_lt_div_of_lt_of_dvd hgi hji
        have hsub : i / Nat.gcd i j - j / Nat.gcd i j ≤ order := by
          obtain ⟨p, hp⟩ := hgi
          obtain ⟨q, hq⟩ := hgj
          have hpg : i / Nat.gcd i j = p := Nat.div_eq_of_eq_mul_right hgpos hp
          have hqg : j / Nat.gcd i j = q := Nat.div_eq_of_eq_mul_right hgpos hq
          rw [hpg, hqg]
          have hg1 : (1 : ℤ) ≤ (Nat.gcd i j : ℤ) := by exact_mod_cast hgpos
          have hqp2 : (q : ℤ) ≤ (p : ℤ) := by
            have hlt : Nat.gcd i j * q < Nat.gcd i j * p := by
              rw [← hp, ← hq]
              exact hji
            exact_mod_cast Nat.le_of_lt (Nat.lt_of_mul_lt_mul_left hlt)
          have hZ : (p : ℤ) - (q : ℤ) ≤ (i : ℤ) - (j : ℤ) := by
            have hpz : (i : ℤ) = (Nat.gcd i j : ℤ) * p := by exact_mod_cast hp
            have hqz : (j : ℤ) = (Nat.gcd i j : ℤ) * q := by exact_mod_cast hq
            rw [hpz, hqz]
            nlinarith [mul_nonneg (sub_nonneg.mpr hg1) (sub_nonneg.mpr hqp2)]
          omega
        exact ⟨Nat.coprime_div_gcd_div_gcd hgpos, hq1, hqp, hsub, h3.1, h3.2⟩
    · refine List.Nodup.append h.2 (List.nodup_singleton _) ?_
      simpa using fun hmem => h4 hmem
  · exact h

/-- Coprime positive pairs are determined by their rational ratio. -/
theorem ratio_inj {s t : ℕ × ℕ} (hs : Nat.Coprime s.1 s.2) (hs2 : 1 ≤ s.2)
    (ht : Nat.Coprime t.1 t.2) (ht2 : 1 ≤ t.2)
    (hr : (s.1 : ℚ) / (s.2 : ℚ) = (t.1 : ℚ) / (t.2 : ℚ)) : s = t := by
  have hs2q : ((s.2 : ℚ)) ≠ 0 := by
    exact_mod_cast Nat.pos_iff_ne_zero.mp hs2
  have ht2q : ((t.2 : ℚ)) ≠ 0 := by
    exact_mod_cast Nat.pos_iff_ne_zero.mp ht2
  have hcross : (s.1 : ℚ) * (t.2 : ℚ) = (t.1 : ℚ) * (s.2 : ℚ) :=
    (div_eq_div_iff hs2q ht2q).mp hr
  have hnat : s.1 * t.2 = t.1 * s.2 := by exact_mod_cast hcross
  have hd1 : s.1 ∣ t.1 := by
    have hdvd : s.1 ∣ t.1 * s.2 := hnat ▸ Dvd.intro t.2 rfl
    exact (Nat.Coprime.dvd_of_dvd_mul_right hs hdvd)
  have hd2 : t.1 ∣ s.1 := by
    have hdvd : t.1 ∣ s.1 * t.2 := hnat.symm ▸ Dvd.intro s.2 rfl
    exact (Nat.Coprime.dvd_of_dvd_mul_right ht hdvd)
  have hp : s.1 = t.1 := Nat.dvd_antisymm hd1 hd2
  have hq : s.2 = t.2 := by
    by_cases hz : s.1 = 0
    · have : t.1 = 0 := by omega
      have h1 : s.2 = 1 := by simpa [hz, Nat.coprime_zero_left] using hs
      have h2 : t.2 = 1 := by simpa [this, Nat.coprime_zero_left] using ht
      omega
    · have heq := hnat
      rw [← hp] at heq
      exact (Nat.eq_of_mul_eq_mul_left (Nat.pos_of_ne_zero hz) heq).symm
  exact Prod.ext hp hq

/-- C9. Two-body canonicality and deduplication: every pair `(p, q)` in a
two-body output set is coprime with positive `q < p`, satisfies
`p - q ≤ order2`, has its ratio inside the axis interval; the set has no
duplicate pair and no duplicate ratio; and the unreduced pair `(4, 2)` is
never returned (so `(4, 2)` and `(2, 1)` can never both appear, for any
interval, in particular with `maxInt2 = 10` and `order2 = 2`). -/
theorem rmm2_canonical (l1 l2 : ℚ) (order maxint : ℕ) :
    (∀ s ∈ rmm2 l1 l2 order maxint, good2 l1 l2 order s) ∧
      (rmm2 l1 l2 order maxint).Nodup ∧
      ((rmm2 l1 l2 order maxint).map (fun s => (s.1 : ℚ) / (s.2 : ℚ))).Nodup ∧
      (4, 2) ∉ rmm2 l1 l2 order maxint := by
  have hmain : (∀ s ∈ rmm2 l1 l2 order maxint, good2 l1 l2 order s) ∧
      (rmm2 l1 l2 order maxint).Nodup := by
    unfold rmm2
    apply foldl_inv_mem
        (fun acc => (∀ s ∈ acc, good2 l1 l2 order s) ∧ acc.Nodup)
    · intro acc i hi hP
      apply foldl_inv_mem
          (fun acc => (∀ s ∈ acc, good2 l1 l2 order s) ∧ acc.Nodup)
      · intro acc j hj hP
        have hi1 : 1 ≤ i := by
          rcases List.mem_map.mp hi with ⟨u, _, hu⟩
          omega
        have hj1 : 1 ≤ j := by
          rcases List.mem_map.mp hj with ⟨u, _, hu⟩
          omega
        exact step2_inv l1 l2 order i j hi1 hj1 acc hP
      · exact hP
    · exact ⟨fun s hs => absurd hs (List.not_mem_nil s), List.nodup_nil⟩
  refine ⟨hmain.1, hmain.2, ?_, ?_⟩
  · refine List.Nodup.map_on ?_ hmain.2
    intro x hx y hy hxy
    have hgx := hmain.1 x hx
    have hgy := hmain.1 y hy
    exact ratio_inj hgx.1 hgx.2.1 hgy.1 hgy.2.1 hxy
  · intro hmem
    have := (hmain.1 (4, 2) hmem).1
    simp [Nat.Coprime] at this

set_option maxRecDepth 4000 in
/-- Witness for C9 at the pair `(2,1)` of the set for interval `[1,3]`,
order 2, search bound 10. -/
theorem rmm2_canonical_witness : good2 1 3 2 (2, 1) :=
  (rmm2_canonical 1 3 2 10).1 (2, 1) (by with_unfolding_all decide)

/-- Convergence-tracking sentinel `xstuck` of the solver loop, with one
state per Python sentinel value: `None`, `"first_stuck_pass"`, a recorded
abscissa, `"no_conv"`. -/
inductive Stuck
  | none
  | firstPass
  | stuckAt (x : ℚ)
  | noConv
deriving DecidableEq

set_option linter.unusedVariables false in
/-- One Halley-style correction `dx` of `mindist_r3p` (lines 274-282),
computed from the current iterate `x0` and current curve value `y0`,
with `ac = a/c`, `g0`, `d1g0`, `d2g0` exactly as in the source (the
argument `b` is carried along but unused in the correction itself, as in
the source). -/
def halleyDx (a b c nx ny x0 y0 : ℚ) : ℚ :=
  let ac := a / c
  let g0 := -2 * nx + 2 * x0 + 2 * y0 ^ 3 * ac - 2 * ny * y0 ^ 2 * ac
  let d1g0 := 2 + 6 * ac ^ 2 * y0 ^ 4 - 4 * ac ^ 2 * ny * y0 ^ 3
  let d2g0 := 24 * ac ^ 3 * y0 ^ 5 - 12 * ny * ac ^ 3 * y0 ^ 4
  2 * g0 * d1g0 / (2 * d1g0 ^ 2 - g0 * d2g0)

/-- The `while abs(dx) > res` loop of `mindist_r3p` (lines 273-298) with a
fuel parameter: the outer `Option.none` means fuel ran out, the result
`some Option.none` is the `break` on declared non-convergence, and
`some (some (x0, y0))` is normal exit with `|dx| ≤ res`. Each pass applies
the Halley step, then the singularity guard: when the new iterate crosses
to `x ≥ -b/a` (with `b ≠ 0`), the sentinel is advanced exactly as the
Python `xstuck` dance does and the iterate is reset to `-b/a - 5e-2` with
`dx = 1`. -/
def loopGo (a b c nx ny res : ℚ) : ℕ → ℚ → ℚ → ℚ → Stuck → Option (Option (ℚ × ℚ))
  | 0, _, _, _, _ => Option.none
  | n + 1, x0, y0, dx, st =>
    if |dx| ≤ res then some (some (x0, y0))
    else if singQ a b ≤ x0 - halleyDx a b c nx ny x0 y0 ∧ b ≠ 0 then
      match st with
      | Stuck.stuckAt xr =>
        if x0 - halleyDx a b c nx ny x0 y0 = xr then some Option.none
        else loopGo a b c nx ny res n (singQ a b - 5/100)
          (r3pQ a b c (singQ a b - 5/100)) 1 (Stuck.stuckAt xr)
      | Stuck.firstPass =>
        loopGo a b c nx ny res n (singQ a b - 5/100)
          (r3pQ a b c (singQ a b - 5/100)) 1
          (Stuck.stuckAt (x0 - halleyDx a b c nx ny x0 y0))
      | Stuck.none =>
        loopGo a b c nx ny res n (singQ a b - 5/100)
          (r3pQ a b c (singQ a b - 5/100)) 1 Stuck.firstPass
      | Stuck.noConv =>
        loopGo a b c nx ny res n (singQ a b - 5/100)
          (r3pQ a b c (singQ a b - 5/100)) 1 Stuck.noConv
    else
      loopGo a b c nx ny res n (x0 - halleyDx a b c nx ny x0 y0)
        (r3pQ a b c (x0 - halleyDx a b c nx ny x0 y0))
        (halleyDx a b c nx ny x0 y0) st

/-- Sample domain of the brute-force fallback (line 301):
`np.linspace(1, singu - 1e-5, 1000000)`, whose `t`-th point is
`1 + t * ((singu - 1e-5) - 1) / 999999`. -/
noncomputable def fallbackDom (a b : ℚ) : List ℝ :=
  (List.range 1000000).map (fun t : ℕ =>
    1 + (t : ℝ) * (((singQ a b : ℚ) : ℝ) - 1 / 100000 - 1) / 999999)

/-- Euclidean distance from the query point to the curve point above `x`
(line 302). -/
noncomputable def fdist (a b c nx ny : ℚ) (x : ℝ) : ℝ :=
  Real.sqrt ((((nx : ℚ) : ℝ) - x) ^ 2 + (((ny : ℚ) : ℝ) - r3pR a b c x) ^ 2)

/-- Brute-force fallback of `mindist_r3p` (lines 300-308): evaluate the
distance at each sample, take the first arg-minimum, and return the
minimal distance together with the coordinates of the minimizing curve
point. -/
noncomputable def fallbackR (a b c nx ny : ℚ) : ℝ × ℝ × ℝ :=
  let xm := ((fallbackDom a b).argmin (fdist a b c nx ny)).getD 0
  (fdist a b c nx ny xm, xm, r3pR a b c xm)

/-- Scalar `mindist_r3p` for one query point `(nx, ny)`: start the Halley
loop from `x0 = nx - 0.5`, `y0 = r3p(x0)`, `dx = 1`; on declared
non-convergence run the brute-force fallback, otherwise return the
distance to the final iterate, in both cases together with the
coordinates (the Python function returns them when `return_coords`). -/
noncomputable def mindistR (a b c nx ny res : ℚ) (fuel : ℕ) : Option (ℝ × ℝ × ℝ) :=
  match loopGo a b c nx ny res fuel (nx - 1/2) (r3pQ a b c (nx - 1/2)) 1 Stuck.none with
  | Option.none => Option.none
  | some Option.none => some (fallbackR a b c nx ny)
  | some (some (x, y)) =>
    some (Real.sqrt ((((nx : ℚ) : ℝ) - ((x : ℚ) : ℝ)) ^ 2 +
        (((ny : ℚ) : ℝ) - ((y : ℚ) : ℝ)) ^ 2),
      ((x : ℚ) : ℝ), ((y : ℚ) : ℝ))

/-- Statement that the solver terminates on some fuel and returns the
distance `d` (with some coordinates). -/
def returnsDist (a b c nx ny res : ℚ) (d : ℝ) : Prop :=
  ∃ (fuel : ℕ) (x y : ℝ), mindistR a b c nx ny res fuel = some (d, x, y)

/-- Casting the rational curve value to the reals gives the real curve value. -/
theorem r3pQ_cast (a b c x : ℚ) : ((r3pQ a b c x : ℚ) : ℝ) = r3pR a b c ((x : ℚ) : ℝ) := by
  unfold r3pQ r3pR
  push_cast
  ring

/-- Unfolding of one loop pass: the `while` condition fails, so the loop
exits at once and returns the current iterate — the iteration stops
exactly when `|dx| ≤ res`. -/
theorem loopGo_succ_exit (a b c nx ny res : ℚ) (n : ℕ) (x0 y0 dx : ℚ) (st : Stuck)
    (h1 : |dx| ≤ res) :
    loopGo a b c nx ny res (n + 1) x0 y0 dx st = some (some (x0, y0)) := by
  simp only [loopGo]
  rw [if_pos h1]

/-- Unfolding of one loop pass in the normal case: the `while` condition
holds and the new iterate does not trigger the singularity guard, so the
loop continues from the Halley-corrected iterate. -/
theorem loopGo_succ_step (a b c nx ny res : ℚ) (n : ℕ) (x0 y0 dx : ℚ) (st : Stuck)
    (h1 : ¬ |dx| ≤ res)
    (h2 : ¬ (singQ a b ≤ x0 - halleyDx a b c nx ny x0 y0 ∧ b ≠ 0)) :
    loopGo a b c nx ny res (n + 1) x0 y0 dx st =
      loopGo a b c nx ny res n (x0 - halleyDx a b c nx ny x0 y0)
        (r3pQ a b c (x0 - halleyDx a b c nx ny x0 y0))
        (halleyDx a b c nx ny x0 y0) st := by
  simp only [loopGo]
  rw [if_neg h1, if_neg h2]

/-- Invariant of the solver loop: with `b ≠ 0`, any normal exit of the
`while` loop happens at an iterate strictly left of the singularity whose
curve value is the one recomputed from the iterate. The precondition
covers the entry state: if the loop would exit immediately, the entry
iterate must already satisfy the invariant. -/
theorem loopGo_sound (a b c nx ny res : ℚ) (hb : b ≠ 0) :
    ∀ (n : ℕ) (x0 y0 dx : ℚ) (st : Stuck),
      (|dx| ≤ res → x0 < singQ a b ∧ y0 = r3pQ a b c x0) →
      ∀ x y, loopGo a b c nx ny res n x0 y0 dx st = some (some (x, y)) →
        x < singQ a b ∧ y = r3pQ a b c x := by
  intro n
  induction n with
  | zero =>
    intro x0 y0 dx st hpre x y heq
    simp [loopGo] at heq
  | succ n ih =>
    intro x0 y0 dx st hpre x y heq
    by_cases hstop : |dx| ≤ res
    · simp only [loopGo] at heq
      rw [if_pos hstop] at heq
      have hxy : (x0, y0) = (x, y) := by
        exact Option.some_inj.mp (Option.some_inj.mp heq)
      obtain ⟨hx, hy⟩ := hpre hstop
      rw [show x = x0 from (congrArg Prod.fst hxy).symm,
        show y = y0 from (congrArg Prod.snd hxy).symm]
      exact ⟨hx, hy⟩
    · have hreset : |(1 : ℚ)| ≤ res → singQ a b - 5/100 < singQ a b ∧
          r3pQ a b c (singQ a b - 5/100) = r3pQ a b c (singQ a b - 5/100) :=
        fun _ => ⟨by linarith, rfl⟩
      simp only [loopGo] at heq
      rw [if_neg hstop] at heq
      by_cases hg : singQ a b ≤ x0 - halleyDx a b c nx ny x0 y0 ∧ b ≠ 0
      · rw [if_pos hg] at heq
        cases st with
        | stuckAt xr =>
          dsimp only at heq
          by_cases hxr : x0 - halleyDx a b c nx ny x0 y0 = xr
          · rw [if_pos hxr] at heq
            simp at heq
          · rw [if_neg hxr] at heq
            exact ih _ _ _ _ hreset x y heq
        | firstPass =>
          dsimp only at heq
          exact ih _ _ _ _ hreset x y heq
        | none =>
          dsimp only at heq
          exact ih _ _ _ _ hreset x y heq
        | noConv =>
          dsimp only at heq
          exact ih _ _ _ _ hreset x y heq
      · rw [if_neg hg] at heq
        have hlt : |halleyDx a b c nx ny x0 y0| ≤ res →
            x0 - halleyDx a b c nx ny x0 y0 < singQ a b ∧
            r3pQ a b c (x0 - halleyDx a b c nx ny x0 y0) =
              r3pQ a b c (x0 - halleyDx a b c nx ny x0 y0) := by
          intro hpass
          refine ⟨?_, rfl⟩
          by_contra hc
          exact hg ⟨le_of_not_lt hc, hb⟩
        exact ih _ _ _ _ hlt x y heq

/-- Every point of the fallback sample domain lies in `[1, singu - 1e-5]`
(provided that interval is nonempty). -/
theorem fallbackDom_bounds {a b : ℚ}
    (hs : (1 : ℝ) ≤ ((singQ a b : ℚ) : ℝ) - 1 / 100000) :
    ∀ x ∈ fallbackDom a b, 1 ≤ x ∧ x ≤ ((singQ a b : ℚ) : ℝ) - 1 / 100000 := by
  intro x hx
  rcases List.mem_map.mp hx with ⟨t, ht, rfl⟩
  have htlt : t < 1000000 := List.mem_range.mp ht
  have ht6 : (t : ℝ) ≤ 999999 := by exact_mod_cast Nat.lt_succ_iff.mp htlt
  have ht0 : (0 : ℝ) ≤ (t : ℝ) := Nat.cast_nonneg t
  have hsm : (0 : ℝ) ≤ ((singQ a b : ℚ) : ℝ) - 1 / 100000 - 1 := by linarith
  constructor
  · have : 0 ≤ (t : ℝ) * (((singQ a b : ℚ) : ℝ) - 1 / 100000 - 1) / 999999 := by
      positivity
    linarith
  · have hmul : (t : ℝ) * (((singQ a b : ℚ) : ℝ) - 1 / 100000 - 1) ≤
        999999 * (((singQ a b : ℚ) : ℝ) - 1 / 100000 - 1) :=
      mul_le_mul_of_nonneg_right ht6 hsm
    have hdiv : (t : ℝ) * (((singQ a b : ℚ) : ℝ) - 1 / 100000 - 1) / 999999 ≤
        ((singQ a b : ℚ) : ℝ) - 1 / 100000 - 1 := by
      rw [div_le_iff₀ (by norm_num : (0:ℝ) < 999999)]
      linarith
    linarith

/-- The fallback sample domain has exactly 1,000,000 points. -/
theorem fallbackDom_length (a b : ℚ) : (fallbackDom a b).length = 1000000 := by
  rw [fallbackDom, List.length_map, List.length_range]

/-- Soundness of the scalar solver: with `b ≠ 0`, a tolerance below 1 and
a singular abscissa at least `1 + 1e-5`, whatever `mindist_r3p` returns is
the exact Euclidean distance from the query point to the returned
coordinate pair, that pair lies exactly on the curve, and its abscissa is
strictly left of the singularity. -/
theorem mindistR_sound {a b c nx ny res : ℚ} {fuel : ℕ} {d x y : ℝ}
    (hb : b ≠ 0) (hres : res < 1) (hs : 1 + 1/100000 ≤ singQ a b)
    (h : mindistR a b c nx ny res fuel = some (d, x, y)) :
    y = r3pR a b c x ∧
      d = Real.sqrt ((((nx : ℚ) : ℝ) - x) ^ 2 + (((ny : ℚ) : ℝ) - y) ^ 2) ∧
      x < ((singQ a b : ℚ) : ℝ) := by
  unfold mindistR at h
  cases hloop : loopGo a b c nx ny res fuel (nx - 1/2) (r3pQ a b c (nx - 1/2)) 1
      Stuck.none with
  | none => rw [hloop] at h; simp at h
  | some o =>
    cases o with
    | none =>
      rw [hloop] at h
      have hfb : fallbackR a b c nx ny = (d, x, y) := Option.some_inj.mp h
      have hsR : (1 : ℝ) ≤ ((singQ a b : ℚ) : ℝ) - 1 / 100000 := by
        have : ((1 + 1/100000 : ℚ) : ℝ) ≤ ((singQ a b : ℚ) : ℝ) := by
          exact_mod_cast hs
        push_cast at this
        linarith
      have hdomne : fallbackDom a b ≠ [] := by
        intro hcon
        have := fallbackDom_length a b
        rw [hcon] at this
        simp at this
      have hargmin : ∃ m, (fallbackDom a b).argmin (fdist a b c nx ny) = some m := by
        cases harg : (fallbackDom a b).argmin (fdist a b c nx ny) with
        | none => exact absurd (List.argmin_eq_none.mp harg) hdomne
        | some m => exact ⟨m, rfl⟩
      obtain ⟨m, hm⟩ := hargmin
      have hmmem : m ∈ fallbackDom a b := List.argmin_mem hm
      have hxeq : x = m := by
        have := congrArg (fun p => p.2.1) hfb
        simpa [fallbackR, hm] using this.symm
      have hyeq : y = r3pR a b c m := by
        have := congrArg (fun p => p.2.2) hfb
        simpa [fallbackR, hm] using this.symm
      have hdeq : d = fdist a b c nx ny m := by
        have := congrArg (fun p => p.1) hfb
        simpa [fallbackR, hm] using this.symm
      refine ⟨by rw [hyeq, hxeq], ?_, ?_⟩
      · rw [hdeq, hxeq, hyeq]
        rfl
      · have := (fallbackDom_bounds hsR m hmmem).2
        rw [hxeq]
        linarith
    | some p =>
      rw [hloop] at h
      have hsound := loopGo_sound a b c nx ny res hb fuel (nx - 1/2)
        (r3pQ a b c (nx - 1/2)) 1 Stuck.none
        (fun habs => absurd habs (by rw [abs_one]; linarith)) p.1 p.2
        (by rw [hloop])
      have hxyd : (Real.sqrt ((((nx : ℚ) : ℝ) - ((p.1 : ℚ) : ℝ)) ^ 2 +
          (((ny : ℚ) : ℝ) - ((p.2 : ℚ) : ℝ)) ^ 2), ((p.1 : ℚ) : ℝ), ((p.2 : ℚ) : ℝ)) =
          ((d, x, y) : ℝ × ℝ × ℝ) := by
        exact Option.some_inj.mp h
      have hx : x = ((p.1 : ℚ) : ℝ) := (congrArg (fun q => q.2.1) hxyd).symm
      have hy : y = ((p.2 : ℚ) : ℝ) := (congrArg (fun q => q.2.2) hxyd).symm
      have hd : d = Real.sqrt ((((nx : ℚ) : ℝ) - ((p.1 : ℚ) : ℝ)) ^ 2 +
          (((ny : ℚ) : ℝ) - ((p.2 : ℚ) : ℝ)) ^ 2) := (congrArg (fun q => q.1) hxyd).symm
      refine ⟨?_, ?_, ?_⟩
      · rw [hy, hx, hsound.2, r3pQ_cast]
      · rw [hd, hx, hy]
      · rw [hx]
        exact_mod_cast hsound.1

/-- C8 (amended). Left-branch restriction: whenever `j ≠ 0`, the tolerance
is below 1 (so the iteration actually runs) and the singular abscissa
`-j/i` is at least `1 + 1e-5` (so the fallback domain stays below it),
the abscissa of the nearest point reported by the solver is strictly left
of the singularity — for a converged iteration because the guard resets
any iterate with `x ≥ -j/i`, for the fallback because its samples lie in
`[1, -j/i - 1e-5]`. -/
theorem mindist_left_branch {a b c nx ny res : ℚ} {fuel : ℕ} {d x y : ℝ}
    (hb : b ≠ 0) (hres : res < 1) (hs : 1 + 1/100000 ≤ singQ a b)
    (h : mindistR a b c nx ny res fuel = some (d, x, y)) :
    x < ((singQ a b : ℚ) : ℝ) :=
  (mindistR_sound hb hres hs h).2.2

/-- C8 (counterexample). With tolerance `res = 2 ≥ 1` the `while` loop
exits immediately and the solver returns the starting abscissa
`nx - 0.5 = 5/2`, which lies right of the singularity `-j/i = 2` of the
resonance `(1, -2, 1)`: as stated (for every tolerance), the claim that
the reported `x` satisfies `x < -j/i` whenever `j ≠ 0` is false. -/
theorem mindist_left_branch_cex :
    mindistR 1 (-2) 1 3 (-1) 2 1 =
      some (Real.sqrt ((((3 : ℚ) : ℝ) - ((3 - 1/2 : ℚ) : ℝ)) ^ 2 +
          (((-1 : ℚ) : ℝ) - ((r3pQ 1 (-2) 1 (3 - 1/2) : ℚ) : ℝ)) ^ 2),
        ((3 - 1/2 : ℚ) : ℝ), ((r3pQ 1 (-2) 1 (3 - 1/2) : ℚ) : ℝ)) ∧
      ¬ (((3 - 1/2 : ℚ) : ℝ) < ((singQ 1 (-2) : ℚ) : ℝ)) := by
  constructor
  · have hloop : loopGo 1 (-2) 1 3 (-1) 2 1 (3 - 1/2) (r3pQ 1 (-2) 1 (3 - 1/2)) 1
        Stuck.none = some (some (3 - 1/2, r3pQ 1 (-2) 1 (3 - 1/2))) := by
      with_unfolding_all decide
    unfold mindistR
    rw [hloop]
  · have h1 : ((3 - 1/2 : ℚ) : ℝ) = 5/2 := by norm_num
    have h2 : ((singQ 1 (-2) : ℚ) : ℝ) = 2 := by
      rw [singQ]
      norm_num
    rw [h1, h2]
    norm_num

/-- Evaluation of a concrete converged run of the solver: query `(0, 0)`,
resonance `(1, -2, 1)`, tolerance `1/2`. One Halley step from
`x0 = -1/2` lands at `x = -48304/463393`, left of the singularity, and
the next `while` check stops the iteration. -/
theorem mindistR_eval_run :
    mindistR 1 (-2) 1 0 0 (1/2) 2 =
      some (Real.sqrt ((((0 : ℚ) : ℝ) - ((-48304/463393 : ℚ) : ℝ)) ^ 2 +
          (((0 : ℚ) : ℝ) - ((463393/975090 : ℚ) : ℝ)) ^ 2),
        ((-48304/463393 : ℚ) : ℝ), ((463393/975090 : ℚ) : ℝ)) := by
  have hy0 : r3pQ 1 (-2) 1 (0 - 1/2) = 2/5 := by
    rw [r3pQ]
    norm_num
  have hdx : halleyDx 1 (-2) 1 0 0 (0 - 1/2) (2/5) = -366785/926786 := by
    rw [halleyDx]
    norm_num
  have hx1 : (0 - 1/2 : ℚ) - -366785/926786 = -48304/463393 := by norm_num
  have hy1 : r3pQ 1 (-2) 1 (-48304/463393) = 463393/975090 := by
    rw [r3pQ]
    norm_num
  have habs1 : ¬ |(1 : ℚ)| ≤ 1/2 := by
    rw [abs_one]
    norm_num
  have hguard : ¬ (singQ 1 (-2) ≤
      (0 - 1/2 : ℚ) - halleyDx 1 (-2) 1 0 0 (0 - 1/2) (r3pQ 1 (-2) 1 (0 - 1/2)) ∧
      (-2 : ℚ) ≠ 0) := by
    rw [hy0, hdx, hx1, singQ]
    intro hcon
    have hle := hcon.1
    norm_num at hle
  have habs2 : |(-366785/926786 : ℚ)| ≤ 1/2 := by
    rw [abs_of_neg (by norm_num)]
    norm_num
  have hloop : loopGo 1 (-2) 1 0 0 (1/2) 2 (0 - 1/2) (r3pQ 1 (-2) 1 (0 - 1/2)) 1
      Stuck.none = some (some (-48304/463393, 463393/975090)) := by
    rw [loopGo_succ_step 1 (-2) 1 0 0 (1/2) 1 (0 - 1/2) (r3pQ 1 (-2) 1 (0 - 1/2)) 1
      Stuck.none habs1 hguard]
    rw [hy0, hdx, hx1, hy1]
    exact loopGo_succ_exit 1 (-2) 1 0 0 (1/2) 0 (-48304/463393) (463393/975090)
      (-366785/926786) Stuck.none habs2
  unfold mindistR
  rw [hloop]

/-- Witness for the amended C8: on the concrete converged run the reported
abscissa is strictly left of the singularity. -/
theorem mindist_left_branch_witness :
    ((-48304/463393 : ℚ) : ℝ) < ((singQ 1 (-2) : ℚ) : ℝ) :=
  mindist_left_branch (by norm_num) (by norm_num)
    (by rw [singQ]; norm_num) mindistR_eval_run

/-- C7 (amended). Whenever the solver returns (with `j ≠ 0`, tolerance
below 1 and singularity at least `1 + 1e-5`), the returned value is the
exact Euclidean distance from the query point to the returned coordinate
pair, which lies exactly on the curve; no bound by the tolerance holds for
an arbitrary on-curve query point, since the solver only measures the
branch left of the singularity (see the counterexample). -/
theorem mindist_exact_distance {a b c nx ny res : ℚ} {fuel : ℕ} {d x y : ℝ}
    (hb : b ≠ 0) (hres : res < 1) (hs : 1 + 1/100000 ≤ singQ a b)
    (h : mindistR a b c nx ny res fuel = some (d, x, y)) :
    y = r3pR a b c x ∧
      d = Real.sqrt ((((nx : ℚ) : ℝ) - x) ^ 2 + (((ny : ℚ) : ℝ) - y) ^ 2) :=
  ⟨(mindistR_sound hb hres hs h).1, (mindistR_sound hb hres hs h).2.1⟩

/-- Witness for the amended C7 on the concrete converged run. -/
theorem mindist_exact_distance_witness :
    ((463393/975090 : ℚ) : ℝ) =
        r3pR 1 (-2) 1 ((-48304/463393 : ℚ) : ℝ) ∧
      Real.sqrt ((((0 : ℚ) : ℝ) - ((-48304/463393 : ℚ) : ℝ)) ^ 2 +
          (((0 : ℚ) : ℝ) - ((463393/975090 : ℚ) : ℝ)) ^ 2) =
        Real.sqrt ((((0 : ℚ) : ℝ) - ((-48304/463393 : ℚ) : ℝ)) ^ 2 +
          (((0 : ℚ) : ℝ) - ((463393/975090 : ℚ) : ℝ)) ^ 2) :=
  mindist_exact_distance (by norm_num) (by norm_num)
    (by rw [singQ]; norm_num) mindistR_eval_run

/-- C7 (counterexample). The point `(3, -1)` lies exactly on the curve of
the resonance `(1, -2, 1)` (it is `(3, curveValue 3)`), on the branch
right of the singularity `-j/i = 2`; the solver, which only measures the
left branch, can never return a distance `≤ 1e-6` for it: every returned
distance is at least `1`. This refutes the claim that for every on-curve
point the call returns a distance bounded by the tolerance. -/
theorem mindist_on_curve_cex :
    r3pQ 1 (-2) 1 3 = -1 ∧
      ¬ ∃ d : ℝ, returnsDist 1 (-2) 1 3 (-1) (1/1000000) d ∧ d ≤ 1/1000000 := by
  constructor
  · rw [r3pQ]
    norm_num
  · rintro ⟨d, ⟨fuel, x, y, hret⟩, hle⟩
    have hsound := mindistR_sound (a := 1) (b := -2) (c := 1)
      (by norm_num) (by norm_num) (by rw [singQ]; norm_num) hret
    obtain ⟨hy, hd, hx⟩ := hsound
    have hsing : ((singQ 1 (-2) : ℚ) : ℝ) = 2 := by
      rw [singQ]
      norm_num
    rw [hsing] at hx
    have h3 : ((3 : ℚ) : ℝ) = 3 := by norm_num
    have hge : (1 : ℝ) ≤ d := by
      rw [hd]
      have h1 : (1 : ℝ) ≤ ((3 : ℚ) : ℝ) - x := by
        rw [h3]
        linarith
      calc (1 : ℝ) ≤ |((3 : ℚ) : ℝ) - x| := by
            rw [abs_of_nonneg (by linarith)]
            exact h1
      _ = Real.sqrt ((((3 : ℚ) : ℝ) - x) ^ 2) := (Real.sqrt_sq_eq_abs _).symm
      _ ≤ Real.sqrt ((((3 : ℚ) : ℝ) - x) ^ 2 + (((-1 : ℚ) : ℝ) - y) ^ 2) :=
          Real.sqrt_le_sqrt (by nlinarith [sq_nonneg (((-1 : ℚ) : ℝ) - y)])
    have : d ≤ 1/1000000 := hle
    linarith

/-- Objective function of the stationarity solve,
`g(x) = -2*nx + 2*x + 2*y^3*(i/k) - 2*ny*y^2*(i/k)` with `y` the curve
value — the expression `g0` of the source. -/
noncomputable def gFun (a b c nx ny : ℚ) (x : ℝ) : ℝ :=
  -2 * (nx : ℝ) + 2 * x + 2 * (r3pR a b c x) ^ 3 * ((a : ℝ) / (c : ℝ)) -
    2 * (ny : ℝ) * (r3pR a b c x) ^ 2 * ((a : ℝ) / (c : ℝ))

/-- The expression `d1g0` of the source,
`2 + 6*ac^2*y^4 - 4*ac^2*ny*y^3`. -/
noncomputable def d1gFun (a b c ny : ℚ) (x : ℝ) : ℝ :=
  2 + 6 * ((a : ℝ) / (c : ℝ)) ^ 2 * (r3pR a b c x) ^ 4 -
    4 * ((a : ℝ) / (c : ℝ)) ^ 2 * (ny : ℝ) * (r3pR a b c x) ^ 3

/-- The expression `d2g0` of the source,
`24*ac^3*y^5 - 12*ny*ac^3*y^4`. -/
noncomputable def d2gFun (a b c ny : ℚ) (x : ℝ) : ℝ :=
  24 * ((a : ℝ) / (c : ℝ)) ^ 3 * (r3pR a b c x) ^ 5 -
    12 * (ny : ℝ) * ((a : ℝ) / (c : ℝ)) ^ 3 * (r3pR a b c x) ^ 4

/-- One iteration of the solver over the reals:
`x ← x - 2*g0*d1g0 / (2*d1g0^2 - g0*d2g0)`. -/
noncomputable def halleyStepR (a b c nx ny : ℚ) (x : ℝ) : ℝ :=
  x - 2 * gFun a b c nx ny x * d1gFun a b c ny x /
    (2 * (d1gFun a b c ny x) ^ 2 - gFun a b c nx ny x * d2gFun a b c ny x)

/-- Derivative of the curve value: away from the singularity and with
`c ≠ 0`, the curve `y = -c/(a*x + b)` has derivative `(a/c) * y^2`. -/
theorem r3pR_hasDeriv (a b c : ℚ) (x : ℝ) (hc : (c : ℝ) ≠ 0)
    (hx : (a : ℝ) * x + (b : ℝ) ≠ 0) :
    HasDerivAt (r3pR a b c) (((a : ℝ) / (c : ℝ)) * (r3pR a b c x) ^ 2) x := by
  have hlin : HasDerivAt (fun t : ℝ => (a : ℝ) * t + (b : ℝ)) (a : ℝ) x := by
    simpa using ((hasDerivAt_id x).const_mul (a : ℝ)).add_const (b : ℝ)
  have hinv := hlin.inv hx
  have hmul := hinv.const_mul (-(c : ℝ))
  have hfun : (fun t : ℝ => -(c : ℝ) * (((a : ℝ) * t + (b : ℝ))⁻¹)) = r3pR a b c := by
    funext t
    rw [r3pR]
    ring
  rw [hfun] at hmul
  convert hmul using 1
  rw [r3pR]
  field_simp
  ring

/-- The source's `d1g0` is the derivative of `g0`. -/
theorem gFun_hasDeriv (a b c nx ny : ℚ) (x : ℝ) (hc : (c : ℝ) ≠ 0)
    (hx : (a : ℝ) * x + (b : ℝ) ≠ 0) :
    HasDerivAt (gFun a b c nx ny) (d1gFun a b c ny x) x := by
  have hy := r3pR_hasDeriv a b c x hc hx
  have hconst : HasDerivAt (fun _ : ℝ => -2 * ((nx : ℚ) : ℝ)) 0 x := hasDerivAt_const x _
  have hid : HasDerivAt (fun t : ℝ => 2 * t) (2 * 1) x := (hasDerivAt_id x).const_mul 2
  have h3 := ((hy.pow 3).const_mul 2).mul_const ((a : ℝ) / (c : ℝ))
  have h2 := ((hy.pow 2).const_mul (2 * ((ny : ℚ) : ℝ))).mul_const ((a : ℝ) / (c : ℝ))
  have hsum := ((hconst.add hid).add h3).sub h2
  have hfun : (fun t : ℝ => -2 * ((nx : ℚ) : ℝ) + 2 * t +
      2 * (r3pR a b c t) ^ 3 * ((a : ℝ) / (c : ℝ)) -
      2 * ((ny : ℚ) : ℝ) * (r3pR a b c t) ^ 2 * ((a : ℝ) / (c : ℝ))) =
      gFun a b c nx ny := by
    funext t
    rw [gFun]
  rw [show (fun t : ℝ => ((fun _ : ℝ => -2 * ((nx : ℚ) : ℝ)) t + 2 * t +
      2 * (r3pR a b c t) ^ 3 * ((a : ℝ) / (c : ℝ)) -
      2 * ((ny : ℚ) : ℝ) * (r3pR a b c t) ^ 2 * ((a : ℝ) / (c : ℝ)))) =
      gFun a b c nx ny from hfun] at hsum
  convert hsum using 1
  rw [d1gFun]
  ring

/-- The source's `d2g0` is the derivative of `d1g0`. -/
theorem d1gFun_hasDeriv (a b c ny : ℚ) (x : ℝ) (hc : (c : ℝ) ≠ 0)
    (hx : (a : ℝ) * x + (b : ℝ) ≠ 0) :
    HasDerivAt (d1gFun a b c ny) (d2gFun a b c ny x) x := by
  have hy := r3pR_hasDeriv a b c x hc hx
  have hconst : HasDerivAt (fun _ : ℝ => (2 : ℝ)) 0 x := hasDerivAt_const x _
  have h4 := (hy.pow 4).const_mul (6 * ((a : ℝ) / (c : ℝ)) ^ 2)
  have h3 := (hy.pow 3).const_mul (4 * ((a : ℝ) / (c : ℝ)) ^ 2 * ((ny : ℚ) : ℝ))
  have hsum := (hconst.add h4).sub h3
  have hfun : (fun t : ℝ => (2 : ℝ) +
      6 * ((a : ℝ) / (c : ℝ)) ^ 2 * (r3pR a b c t) ^ 4 -
      4 * ((a : ℝ) / (c : ℝ)) ^ 2 * ((ny : ℚ) : ℝ) * (r3pR a b c t) ^ 3) =
      d1gFun a b c ny := by
    funext t
    rw [d1gFun]
  rw [show (fun t : ℝ => ((fun _ : ℝ => (2 : ℝ)) t +
      6 * ((a : ℝ) / (c : ℝ)) ^ 2 * (r3pR a b c t) ^ 4 -
      4 * ((a : ℝ) / (c : ℝ)) ^ 2 * ((ny : ℚ) : ℝ) * (r3pR a b c t) ^ 3)) =
      d1gFun a b c ny from hfun] at hsum
  convert hsum using 1
  rw [d2gFun]
  ring

/-- C4. Halley-style iteration: the update applied by the solver is
`x ← x - 2*g*g1 / (2*g1^2 - g*g2)` where `g` is the stationarity function
written in the specification and `g1`, `g2` are its true first and second
derivatives (for `k ≠ 0` and away from the singularity); the rational
loop step computes exactly this real step; the loop stops exactly when
`|dx| ≤ res`; and with any tolerance `≥ 1` the solver returns immediately
at the starting iterate `x0 = nx - 0.5`. -/
theorem halley_step_spec (a b c nx ny : ℚ) (x : ℝ) (hc : (c : ℝ) ≠ 0)
    (hx : (a : ℝ) * x + (b : ℝ) ≠ 0) :
    HasDerivAt (gFun a b c nx ny) (d1gFun a b c ny x) x ∧
      HasDerivAt (d1gFun a b c ny) (d2gFun a b c ny x) x ∧
      halleyStepR a b c nx ny x =
        x - 2 * gFun a b c nx ny x * d1gFun a b c ny x /
          (2 * (d1gFun a b c ny x) ^ 2 - gFun a b c nx ny x * d2gFun a b c ny x) ∧
      (∀ xq : ℚ, ((xq - halleyDx a b c nx ny xq (r3pQ a b c xq) : ℚ) : ℝ) =
        halleyStepR a b c nx ny ((xq : ℚ) : ℝ)) ∧
      (∀ (res : ℚ) (n : ℕ) (x0 y0 dx : ℚ) (st : Stuck), |dx| ≤ res →
        loopGo a b c nx ny res (n + 1) x0 y0 dx st = some (some (x0, y0))) ∧
      (∀ (res : ℚ), 1 ≤ res → ∀ fuel : ℕ,
        mindistR a b c nx ny res (fuel + 1) =
          some (Real.sqrt ((((nx : ℚ) : ℝ) - ((nx - 1/2 : ℚ) : ℝ)) ^ 2 +
              (((ny : ℚ) : ℝ) - ((r3pQ a b c (nx - 1/2) : ℚ) : ℝ)) ^ 2),
            ((nx - 1/2 : ℚ) : ℝ), ((r3pQ a b c (nx - 1/2) : ℚ) : ℝ))) := by
  refine ⟨gFun_hasDeriv a b c nx ny x hc hx, d1gFun_hasDeriv a b c ny x hc hx,
    rfl, ?_, ?_, ?_⟩
  · intro xq
    simp only [halleyStepR, gFun, d1gFun, d2gFun, halleyDx, r3pQ, r3pR]
    push_cast
    ring
  · intro res n x0 y0 dx st hdx
    exact loopGo_succ_exit a b c nx ny res n x0 y0 dx st hdx
  · intro res hres fuel
    unfold mindistR
    rw [loopGo_succ_exit a b c nx ny res fuel (nx - 1/2) (r3pQ a b c (nx - 1/2)) 1
      Stuck.none (by rw [abs_one]; exact hres)]

/-- Witness for C4: the step equation at the concrete resonance
`(1, -2, 1)`, query `(3, -1)` and abscissa `0`. -/
theorem halley_step_spec_witness :
    halleyStepR 1 (-2) 1 3 (-1) 0 =
      0 - 2 * gFun 1 (-2) 1 3 (-1) 0 * d1gFun 1 (-2) 1 (-1) 0 /
        (2 * (d1gFun 1 (-2) 1 (-1) 0) ^ 2 -
          gFun 1 (-2) 1 3 (-1) 0 * d2gFun 1 (-2) 1 (-1) 0) :=
  (halley_step_spec 1 (-2) 1 3 (-1) 0 (by norm_num) (by norm_num)).2.2.1

/-- C5. Fallback on non-convergence: whenever the loop declares
non-convergence the solver returns the fallback value; the fallback's
sample domain consists of exactly 1,000,000 points, the `t`-th being
`1 + t*((singu - 1e-5) - 1)/999999` (uniform spacing over
`[1, singu - 1e-5]`, all samples inside that interval); the returned
value is the Euclidean distance to the curve point over some sample,
with the coordinates of that sample, and it is minimal among all
sampled distances. -/
theorem fallback_spec (a b c nx ny : ℚ) (hs : 1 + 1/100000 ≤ singQ a b) :
    (fallbackDom a b).length = 1000000 ∧
      (∀ t : ℕ, t < 1000000 →
        (1 + (t : ℝ) * (((singQ a b : ℚ) : ℝ) - 1/100000 - 1) / 999999) ∈
          fallbackDom a b) ∧
      (∀ x ∈ fallbackDom a b, 1 ≤ x ∧ x ≤ ((singQ a b : ℚ) : ℝ) - 1/100000) ∧
      (∃ xm ∈ fallbackDom a b,
        fallbackR a b c nx ny = (fdist a b c nx ny xm, xm, r3pR a b c xm) ∧
        ∀ x ∈ fallbackDom a b, fdist a b c nx ny xm ≤ fdist a b c nx ny x) ∧
      (∀ (res : ℚ) (fuel : ℕ),
        loopGo a b c nx ny res fuel (nx - 1/2) (r3pQ a b c (nx - 1/2)) 1 Stuck.none =
          some Option.none →
        mindistR a b c nx ny res fuel = some (fallbackR a b c nx ny)) := by
  have hsR : (1 : ℝ) ≤ ((singQ a b : ℚ) : ℝ) - 1 / 100000 := by
    have hcast : ((1 + 1/100000 : ℚ) : ℝ) ≤ ((singQ a b : ℚ) : ℝ) := by
      exact_mod_cast hs
    push_cast at hcast
    linarith
  refine ⟨fallbackDom_length a b, ?_, fallbackDom_bounds hsR, ?_, ?_⟩
  · intro t ht
    exact List.mem_map.mpr ⟨t, List.mem_range.mpr ht, rfl⟩
  · have hdomne : fallbackDom a b ≠ [] := by
      intro hcon
      have hlen := fallbackDom_length a b
      rw [hcon] at hlen
      simp at hlen
    cases harg : (fallbackDom a b).argmin (fdist a b c nx ny) with
    | none => exact absurd (List.argmin_eq_none.mp harg) hdomne
    | some m =>
      refine ⟨m, List.argmin_mem harg, ?_, ?_⟩
      · rw [fallbackR, harg]
        rfl
      · intro x hx
        exact List.le_of_mem_argmin hx harg
  · intro res fuel hl
    unfold mindistR
    rw [hl]

/-- Witness for C5 at the resonance `(1, -2, 1)` (singularity at `2`). -/
theorem fallback_spec_witness : (fallbackDom 1 (-2)).length = 1000000 :=
  (fallback_spec 1 (-2) 1 0 0 (by rw [singQ]; norm_num)).1

end Resokit
